import Mathlib

/-!
# Conductor-backed edge-coupled coplanar waveguide calculator

A shallow embedding of `edge_coupled_cpwg.cpp`.

The program evaluates a fixed chain of closed-form formulas on six global `double`s.
Every derived quantity of the source is an object-like preprocessor macro whose body is
wrapped in parentheses, so textual expansion of a macro name coincides with substituting
the value of its body; each macro is therefore embedded as a function of the global state.

Numbers are read over the reals.  A `double` expression denotes a value of type `Val`:
either a real number, or `nan` when some operation inside it has no real value
(division by zero, square root of a negative number, an elliptic integral outside its
domain).  `nan` is absorbing for every operation and every comparison with `nan` is false,
as for an IEEE not-a-number.
-/

namespace EdgeCoupledCpwg

noncomputable section

/-- The value of a `double` expression read over the reals: a real number, or `nan` when
some operation of the expression is undefined over the reals. -/
inductive Val where
  | fin (x : ℝ)
  | nan

namespace Val

/-- Addition of doubles, `nan` absorbing. -/
def add : Val → Val → Val
  | fin x, fin y => fin (x + y)
  | _, _ => nan

/-- Subtraction of doubles, `nan` absorbing. -/
def sub : Val → Val → Val
  | fin x, fin y => fin (x - y)
  | _, _ => nan

/-- Multiplication of doubles, `nan` absorbing. -/
def mul : Val → Val → Val
  | fin x, fin y => fin (x * y)
  | _, _ => nan

/-- Division of doubles: no real value when the divisor is zero. -/
def div : Val → Val → Val
  | fin x, fin y => if y = 0 then nan else fin (x / y)
  | _, _ => nan

/-- Unary minus. -/
def neg : Val → Val
  | fin x => fin (-x)
  | nan => nan

/-- The C library `sqrt`: no real value on a negative argument. -/
def sqrt : Val → Val
  | fin x => if 0 ≤ x then fin (Real.sqrt x) else nan
  | nan => nan

/-- The C library `pow` at a natural exponent (the source only calls `pow(x,2)`). -/
def pow : Val → ℕ → Val
  | fin x, n => fin (x ^ n)
  | nan, _ => nan

/-- The C library `cosh`. -/
def cosh : Val → Val
  | fin x => fin (Real.cosh x)
  | nan => nan

/-- The C library `sinh`. -/
def sinh : Val → Val
  | fin x => fin (Real.sinh x)
  | nan => nan

/-- Comparison `<` of doubles: false as soon as one side is `nan`. -/
def lt : Val → Val → Prop
  | fin x, fin y => x < y
  | _, _ => False

/-- Comparison `<=` of doubles: false as soon as one side is `nan`. -/
def le : Val → Val → Prop
  | fin x, fin y => x ≤ y
  | _, _ => False

/-- The real number carried by a value (`0` for `nan`); only used to state limits. -/
def toReal : Val → ℝ
  | fin x => x
  | nan => 0

instance : Add Val := ⟨add⟩
instance : Sub Val := ⟨sub⟩
instance : Mul Val := ⟨mul⟩
instance : Div Val := ⟨div⟩
instance : Neg Val := ⟨neg⟩
instance : LT Val := ⟨lt⟩
instance : LE Val := ⟨le⟩
instance : Zero Val := ⟨fin 0⟩
instance : One Val := ⟨fin 1⟩
instance (n : ℕ) [n.AtLeastTwo] : OfNat Val n := ⟨fin (OfNat.ofNat n)⟩
instance : OfScientific Val := ⟨fun m s e => fin (OfScientific.ofScientific m s e)⟩
instance : Coe ℝ Val := ⟨fin⟩

end Val

open Val

/-! ## The source, line by line -/

/-- Line 12: `const double pi = 3.14159265358979323846;` -/
def pi : Val := 3.14159265358979323846

/-- Line 13: `const double eta_0 = 120 * pi;` -/
def eta_0 : Val := 120 * pi

/-- Lines 16-20 and 29: the six global variables `main` assigns from the command line. -/
structure Globals where
  /-- space between strip conductors -/
  d : Val
  /-- strip conductors' width -/
  S : Val
  /-- space between strip conductor and ground plane -/
  W : Val
  /-- copper thickness -/
  t : Val
  /-- dielectric thickness -/
  h : Val
  /-- relative permittivity -/
  epsilon_r : Val

/-- Line 21: `#define a (d/2)` -/
def a (g : Globals) : Val := g.d / 2

/-- Line 22: `#define b (d/2+S)` -/
def b (g : Globals) : Val := g.d / 2 + g.S

/-- Line 23: `#define c (d/2+S+W)` -/
def c (g : Globals) : Val := g.d / 2 + g.S + g.W

/-- Line 24: `#define r (a/b)` -/
def r (g : Globals) : Val := a g / b g

/-- Line 25: `#define k1 (b/c)` -/
def k1 (g : Globals) : Val := b g / c g

/-- Line 26: `#define delta (sqrt((1-r*r)/(1-k1*k1*r*r)))` -/
def delta (g : Globals) : Val :=
  Val.sqrt ((1 - r g * r g) / (1 - k1 g * k1 g * r g * r g))

/-- The complete elliptic integral of the first kind of the modulus `k`, as an integral:
`1 / sqrt (1 - k^2 sin^2 θ)` integrated over `[0, π/2]`. -/
def ellipticK (k : ℝ) : ℝ :=
  ∫ θ in (0 : ℝ)..(Real.pi / 2), 1 / Real.sqrt (1 - k ^ 2 * Real.sin θ ^ 2)

/-- Modelled from the spec: `std::comp_ellint_1` belongs to the C++ standard library, not
to this repository.  It is the complete elliptic integral of the first kind of the modulus
`k`, which is finite exactly when `|k| < 1`; outside that range the result is not a finite
number. -/
def comp_ellint_1 (k : ℝ) : Val :=
  if |k| < 1 then fin (ellipticK k) else nan

/-- Lines 32-34: `K(arg)` returns `std::comp_ellint_1(arg)`.  The library function is the
parameter `E`, given on real arguments; a `nan` argument yields `nan`. -/
def K (E : ℝ → Val) (arg : Val) : Val :=
  match arg with
  | fin x => E x
  | nan => nan

/-- Lines 36-38: `K_prime(arg)` returns `K(1 - (arg*arg))`. -/
def K_prime (E : ℝ → Val) (arg : Val) : Val := K E (1 - (arg * arg))

/-- Lines 40-42: `Kokp(arg)` returns `K(arg)/K_prime(arg)`. -/
def Kokp (E : ℝ → Val) (arg : Val) : Val := K E arg / K_prime E arg

/-- Line 44: `#define phi1 (0.5*pow(cosh((pi/(2*h))*c),2))` -/
def phi1 (g : Globals) : Val := 0.5 * Val.pow (Val.cosh ((pi / (2 * g.h)) * c g)) 2

/-- Line 45: `#define phi2 (pow(sinh((pi/(2*h))*b),2)-phi1+1)` -/
def phi2 (g : Globals) : Val := Val.pow (Val.sinh ((pi / (2 * g.h)) * b g)) 2 - phi1 g + 1

/-- Line 46: `#define phi3 (pow(sinh(pi*d/(4*h)),2)-phi1+1)` -/
def phi3 (g : Globals) : Val := Val.pow (Val.sinh (pi * g.d / (4 * g.h))) 2 - phi1 g + 1

/-- Line 47: `#define phi4 (0.5*pow(sinh((pi/(2*h))*c),2))` -/
def phi4 (g : Globals) : Val := 0.5 * Val.pow (Val.sinh ((pi / (2 * g.h)) * c g)) 2

/-- Line 48: `#define phi5 (pow(sinh((pi/(2*h))*b),2)-phi4)` -/
def phi5 (g : Globals) : Val := Val.pow (Val.sinh ((pi / (2 * g.h)) * b g)) 2 - phi4 g

/-- Line 49: `#define phi6 (pow(sinh(pi*d/(4*h)),2)-phi4)` -/
def phi6 (g : Globals) : Val := Val.pow (Val.sinh (pi * g.d / (4 * g.h))) 2 - phi4 g

/-- Line 51: the even-mode modulus `ke`. -/
def ke (g : Globals) : Val :=
  phi1 g * (-Val.sqrt (phi1 g * phi1 g - (phi2 g * phi2 g))
              + Val.sqrt (phi1 g * phi1 g - (phi3 g * phi3 g)))
    / (phi3 g * Val.sqrt (phi1 g * phi1 g - (phi2 g * phi2 g))
        + phi2 g * Val.sqrt (phi1 g * phi1 g - (phi3 g * phi3 g)))

/-- Line 52: the odd-mode modulus `ko`. -/
def ko (g : Globals) : Val :=
  phi4 g * (-Val.sqrt (phi4 g * phi4 g - (phi5 g * phi5 g))
              + Val.sqrt (phi4 g * phi4 g - (phi6 g * phi6 g)))
    / (phi6 g * Val.sqrt (phi4 g * phi4 g - (phi5 g * phi5 g))
        + phi5 g * Val.sqrt (phi4 g * phi4 g - (phi6 g * phi6 g)))

/-- The divisor of line 51, the subexpression `ke` divides by. -/
def ke_den (g : Globals) : Val :=
  phi3 g * Val.sqrt (phi1 g * phi1 g - (phi2 g * phi2 g))
    + phi2 g * Val.sqrt (phi1 g * phi1 g - (phi3 g * phi3 g))

/-- The divisor of line 52, the subexpression `ko` divides by. -/
def ko_den (g : Globals) : Val :=
  phi6 g * Val.sqrt (phi4 g * phi4 g - (phi5 g * phi5 g))
    + phi5 g * Val.sqrt (phi4 g * phi4 g - (phi6 g * phi6 g))

/-- Line 54: `#define Er_even ((2*epsilon_r*(Kokp(ke))+(Kokp(delta*k1)))/((2*Kokp(ke))+(Kokp(delta*k1))))` -/
def Er_even (E : ℝ → Val) (g : Globals) : Val :=
  (2 * g.epsilon_r * (Kokp E (ke g)) + (Kokp E (delta g * k1 g)))
    / ((2 * Kokp E (ke g)) + (Kokp E (delta g * k1 g)))

/-- Line 55: `#define Er_odd ((2*epsilon_r*(Kokp(ko))+(Kokp(delta)))/((2*Kokp(ko))+(Kokp(delta))))` -/
def Er_odd (E : ℝ → Val) (g : Globals) : Val :=
  (2 * g.epsilon_r * (Kokp E (ko g)) + (Kokp E (delta g)))
    / ((2 * Kokp E (ko g)) + (Kokp E (delta g)))

/-- Line 57: `#define Zeven (eta_0/(sqrt(Er_even)*(2*(Kokp(ke))+(Kokp(delta*k1)))))` -/
def Zeven (E : ℝ → Val) (g : Globals) : Val :=
  eta_0 / (Val.sqrt (Er_even E g) * (2 * (Kokp E (ke g)) + (Kokp E (delta g * k1 g))))

/-- Line 58: `#define Zodd (eta_0/(sqrt(Er_odd)*(2*(Kokp(ko))+(Kokp(delta)))))` -/
def Zodd (E : ℝ → Val) (g : Globals) : Val :=
  eta_0 / (Val.sqrt (Er_odd E g) * (2 * (Kokp E (ko g)) + (Kokp E (delta g))))

/-- Line 60: `#define Zdiff (Zodd * 2)` -/
def Zdiff (E : ℝ → Val) (g : Globals) : Val := Zodd E g * 2

/-- Line 61: `#define Zcomm (Zeven / 2)` -/
def Zcomm (E : ℝ → Val) (g : Globals) : Val := Zeven E g / 2

/-- Line 62: `#define Z0 (sqrt(Zeven * Zodd))` -/
def Z0 (E : ℝ → Val) (g : Globals) : Val := Val.sqrt (Zeven E g * Zodd E g)

/-- Lines 114-120: the seven values `main` prints, in print order. -/
def outputs (E : ℝ → Val) (g : Globals) : List Val :=
  [Er_even E g, Er_odd E g, Zeven E g, Zodd E g, Z0 E g, Zdiff E g, Zcomm E g]

/-- The dividend of line 51, the subexpression `ke` divides. -/
def ke_num (g : Globals) : Val :=
  phi1 g * (-Val.sqrt (phi1 g * phi1 g - (phi2 g * phi2 g))
              + Val.sqrt (phi1 g * phi1 g - (phi3 g * phi3 g)))

/-! ## The command line -/

/-- What `main` sends to `std::cout`: a string literal as written, or a `double`, whose
decimal rendering by the stream is left to the library. -/
inductive Piece where
  | text (s : String)
  | num (v : Val)

/-- Lines 68-102: the string literals of the usage message, concatenated in order. -/
def usage_text : String :=
  "\n"
  ++ "Conductor-backed edge coupled coplanar waveguides calculator\n"
  ++ "By Tomek Szczęsny, 2022\n"
  ++ "\n"
  ++ "Based on:\n"
  ++ "Rainee N. Simons \"Coplanar waveguide Circuits, Components, and Systems\", 2001, Ch. 7.4\n"
  ++ "Brian C. Wadell \"Transmission Line Design Handbook\", 1991, Ch. 4.4.3\n"
  ++ "\n"
  ++ "Usage:\n"
  ++ "edge_coupled_cpwg d S W t h Er\n"
  ++ "\n"
  ++ "Example:\n"
  ++ "edge_coupled_cpwg 0.2 0.41 0.2 0.035 1.593 4.5\n"
  ++ "\n"
  ++ "                      / /   /            / /   /            / /   /             \n"
  ++ "                     / /   /            / /   /            / /   /              \n"
  ++ "                    / /   /            / /   /            / /   /               \n"
  ++ "                   / /   /            / /   /            / /   /                \n"
  ++ "                  / /   /            / /   /            / /   /                 \n"
  ++ "-----------------+ /   +------------+ /   +------------+ /   +----------------  \n"
  ++ "  Ground Plane   |/    |   Diff -   |/    |   Diff +   |/    | Ground Plane   \x7dt\n"
  ++ "-----------------+-----+------------+-----+------------+-----+----------------  \n"
  ++ " . . . . . . . . . . . . . . . . . . . . . . . . . . . . . . . . . . . . . .  ^ \n"
  ++ ". . . . . . . . . . . . . . . . . . . . . . . . . . . . . . . . . . . . . . . | \n"
  ++ " . . . . . . . . . . . . . . . . .Dielectric . . . . . . . . . . . . . . . .  |h\n"
  ++ ". . . . . . . . . . . . . . . . . . . Er. . . . . . . . . . . . . . . . . . . | \n"
  ++ " . . . . . . . . . . . . . . . . . . . . . . . . . . . . . . . . . . . . . .  | \n"
  ++ ". . . . . . . . . . . . . . . . . . . . . . . . . . . . . . . . . . . . . . . v \n"
  ++ "------------------------------------------------------------------------------  \n"
  ++ "                           G r o u n d   P l a n e                              \n"
  ++ "                                                                                \n"
  ++ "                 |     |            |     |            |     |                  \n"
  ++ "                 |<--->|<---------->|<--->|<---------->|<--->|                  \n"
  ++ "                    W        S         d         S        W                     \n"
  ++ "\n"

/-- Lines 64-121: `main`.  `argv` is the whole argument vector, program name included, so
`argc` is its length; `atof` is the C library function.  The result is what was written to
standard output and the exit status: `exit(0)` on line 104, and the implicit `return 0` of
`main` after line 120. -/
def main (E : ℝ → Val) (atof : String → Val) (argv : List String) : List Piece × Nat :=
  if argv.length ≠ 7 then
    ([Piece.text usage_text], 0)
  else
    let g : Globals := Globals.mk (atof (argv.getD 1 "")) (atof (argv.getD 2 ""))
      (atof (argv.getD 3 "")) (atof (argv.getD 4 "")) (atof (argv.getD 5 ""))
      (atof (argv.getD 6 ""))
    ([Piece.text "Er_even = ", Piece.num (Er_even E g), Piece.text "\n",
      Piece.text "Er_odd  = ", Piece.num (Er_odd E g), Piece.text "\n",
      Piece.text "Zeven   = ", Piece.num (Zeven E g), Piece.text "\n",
      Piece.text "Zodd    = ", Piece.num (Zodd E g), Piece.text "\n",
      Piece.text "Z0      = ", Piece.num (Z0 E g), Piece.text "\n",
      Piece.text "Zdiff   = ", Piece.num (Zdiff E g), Piece.text "\n",
      Piece.text "Zcomm   = ", Piece.num (Zcomm E g), Piece.text "\n"], 0)

/-- A stand-in for the C library `atof` that reads every token as `0.0`. -/
def atof_zero (_ : String) : Val := 0

/-! ## Auxiliary inputs and constants -/

/-- The real number carried by the constant `pi`. -/
def piR : ℝ := 3.14159265358979323846

/-- A cross-section given by the hyperbolic sines `sa`, `sb`, `sc` of its three scaled
half-widths: with `h = pi/2` the macros `phi1` .. `phi6` see the arguments
`arsinh sa`, `arsinh sb`, `arsinh sc`. -/
def hyperbolic_input (sa sb sc : ℝ) (t epsilon_r : Val) : Globals where
  d := fin (2 * Real.arsinh sa)
  S := fin (Real.arsinh sb - Real.arsinh sa)
  W := fin (Real.arsinh sc - Real.arsinh sb)
  t := t
  h := pi / 2
  epsilon_r := epsilon_r

/-- A valid cross-section at which the divisor of `ke` vanishes: the three hyperbolic
sines are 4, 8 and 9. -/
def degenerate_input (epsilon_r : Val) : Globals := hyperbolic_input 4 8 9 0.035 epsilon_r

/-- A valid cross-section at which neither divisor vanishes: the three hyperbolic sines
are 1, 2 and 3. -/
def regular_input (epsilon_r : Val) : Globals := hyperbolic_input 1 2 3 0.035 epsilon_r

/-! ## Arithmetic of `Val` -/

namespace Val

@[simp] theorem fin_add (x y : ℝ) : fin x + fin y = fin (x + y) := rfl
@[simp] theorem fin_sub (x y : ℝ) : fin x - fin y = fin (x - y) := rfl
@[simp] theorem fin_mul (x y : ℝ) : fin x * fin y = fin (x * y) := rfl
@[simp] theorem fin_neg (x : ℝ) : -fin x = fin (-x) := rfl
@[simp] theorem fin_div (x y : ℝ) : fin x / fin y = if y = 0 then nan else fin (x / y) := rfl
@[simp] theorem nan_add (v : Val) : nan + v = nan := rfl
@[simp] theorem add_nan (v : Val) : v + nan = nan := by cases v <;> rfl
@[simp] theorem nan_sub (v : Val) : nan - v = nan := rfl
@[simp] theorem sub_nan (v : Val) : v - nan = nan := by cases v <;> rfl
@[simp] theorem nan_mul (v : Val) : nan * v = nan := rfl
@[simp] theorem mul_nan (v : Val) : v * nan = nan := by cases v <;> rfl
@[simp] theorem nan_div (v : Val) : nan / v = nan := rfl
@[simp] theorem div_nan (v : Val) : v / nan = nan := by cases v <;> rfl
@[simp] theorem neg_nan : -nan = nan := rfl
@[simp] theorem sqrt_fin (x : ℝ) : sqrt (fin x) = if 0 ≤ x then fin (Real.sqrt x) else nan := rfl
@[simp] theorem sqrt_nan : sqrt nan = nan := rfl
@[simp] theorem pow_fin (x : ℝ) (n : ℕ) : pow (fin x) n = fin (x ^ n) := rfl
@[simp] theorem pow_nan (n : ℕ) : pow nan n = nan := rfl
@[simp] theorem cosh_fin (x : ℝ) : cosh (fin x) = fin (Real.cosh x) := rfl
@[simp] theorem cosh_nan : cosh nan = nan := rfl
@[simp] theorem sinh_fin (x : ℝ) : sinh (fin x) = fin (Real.sinh x) := rfl
@[simp] theorem sinh_nan : sinh nan = nan := rfl
@[simp] theorem fin_lt (x y : ℝ) : fin x < fin y ↔ x < y := Iff.rfl
@[simp] theorem fin_le (x y : ℝ) : fin x ≤ fin y ↔ x ≤ y := Iff.rfl
@[simp] theorem nan_lt (v : Val) : ¬ nan < v := fun h => h
@[simp] theorem lt_nan (v : Val) : ¬ v < nan := by cases v <;> exact fun h => h
@[simp] theorem nan_le (v : Val) : ¬ nan ≤ v := fun h => h
@[simp] theorem le_nan (v : Val) : ¬ v ≤ nan := by cases v <;> exact fun h => h
@[simp] theorem zero_def : (0 : Val) = fin 0 := rfl
@[simp] theorem one_def : (1 : Val) = fin 1 := rfl
@[simp] theorem ofNat_def (n : ℕ) [n.AtLeastTwo] :
    (no_index (OfNat.ofNat n) : Val) = fin (OfNat.ofNat n) := rfl
@[simp] theorem ofScientific_def (m : ℕ) (s : Bool) (e : ℕ) :
    (OfScientific.ofScientific m s e : Val) = fin (OfScientific.ofScientific m s e) := rfl
@[simp] theorem toReal_fin (x : ℝ) : toReal (fin x) = x := rfl

theorem lt_iff {u v : Val} : u < v ↔ ∃ x y, u = fin x ∧ v = fin y ∧ x < y := by
  cases u <;> cases v <;> simp

theorem le_iff {u v : Val} : u ≤ v ↔ ∃ x y, u = fin x ∧ v = fin y ∧ x ≤ y := by
  cases u <;> cases v <;> simp

theorem pos_iff {v : Val} : 0 < v ↔ ∃ x, v = fin x ∧ 0 < x := by
  cases v <;> simp

theorem one_le_iff {v : Val} : 1 ≤ v ↔ ∃ x, v = fin x ∧ 1 ≤ x := by
  cases v <;> simp

theorem mul_swap (u v : Val) : u * v = v * u := by
  cases u <;> cases v <;> simp [mul_comm]

theorem pow_two (u : Val) : pow u 2 = u * u := by
  cases u <;> simp [sq]

theorem div_mul_eq (u v w : Val) : (u / w) * v = u * v / w := by
  cases u <;> cases v <;> cases w <;> simp
  rename_i x y z
  by_cases hz : z = 0
  · simp [hz]
  · simp [hz, div_mul_eq_mul_div]

theorem mul_mul_mul_eq (u v : Val) : u * u * v * v = pow (u * v) 2 := by
  cases u <;> cases v <;> simp
  ring

end Val

/-! ## The formula chain as written -/

/-- C4: after macro expansion the geometry macros compute `a = d/2`, `b = d/2+S`,
`c = d/2+S+W`, `r = a/b`, `k1 = b/c` and `delta = sqrt((1 - r^2)/(1 - (k1*r)^2))`. -/
theorem geometry_reducer_contract (g : Globals) :
    a g = g.d / 2 ∧ b g = g.d / 2 + g.S ∧ c g = g.d / 2 + g.S + g.W ∧
    r g = (g.d / 2) / (g.d / 2 + g.S) ∧
    k1 g = (g.d / 2 + g.S) / (g.d / 2 + g.S + g.W) ∧
    delta g = Val.sqrt ((1 - Val.pow (r g) 2) / (1 - Val.pow (k1 g * r g) 2)) := by
  refine ⟨rfl, rfl, rfl, rfl, rfl, ?_⟩
  rw [Val.pow_two, ← Val.mul_mul_mul_eq]
  rfl

/-- C3: the macros `phi1` .. `phi6` are the six hyperbolic terms of the specification,
with `b = d/2+S` and `c = d/2+S+W`, and `ke`, `ko` are its two quotient formulas. -/
theorem modulus_corrector_contract (g : Globals) :
    phi1 g = 0.5 * Val.pow (Val.cosh (pi * (g.d / 2 + g.S + g.W) / (2 * g.h))) 2 ∧
    phi2 g = Val.pow (Val.sinh (pi * (g.d / 2 + g.S) / (2 * g.h))) 2 - phi1 g + 1 ∧
    phi3 g = Val.pow (Val.sinh (pi * g.d / (4 * g.h))) 2 - phi1 g + 1 ∧
    phi4 g = 0.5 * Val.pow (Val.sinh (pi * (g.d / 2 + g.S + g.W) / (2 * g.h))) 2 ∧
    phi5 g = Val.pow (Val.sinh (pi * (g.d / 2 + g.S) / (2 * g.h))) 2 - phi4 g ∧
    phi6 g = Val.pow (Val.sinh (pi * g.d / (4 * g.h))) 2 - phi4 g ∧
    ke g = phi1 g * (-Val.sqrt (Val.pow (phi1 g) 2 - Val.pow (phi2 g) 2)
                      + Val.sqrt (Val.pow (phi1 g) 2 - Val.pow (phi3 g) 2))
            / (phi3 g * Val.sqrt (Val.pow (phi1 g) 2 - Val.pow (phi2 g) 2)
                + phi2 g * Val.sqrt (Val.pow (phi1 g) 2 - Val.pow (phi3 g) 2)) ∧
    ko g = phi4 g * (-Val.sqrt (Val.pow (phi4 g) 2 - Val.pow (phi5 g) 2)
                      + Val.sqrt (Val.pow (phi4 g) 2 - Val.pow (phi6 g) 2))
            / (phi6 g * Val.sqrt (Val.pow (phi4 g) 2 - Val.pow (phi5 g) 2)
                + phi5 g * Val.sqrt (Val.pow (phi4 g) 2 - Val.pow (phi6 g) 2)) := by
  refine ⟨?_, ?_, rfl, ?_, ?_, rfl, ?_, ?_⟩
  · rw [← Val.div_mul_eq]; rfl
  · rw [← Val.div_mul_eq]; rfl
  · rw [← Val.div_mul_eq]; rfl
  · rw [← Val.div_mul_eq]; rfl
  · simp only [Val.pow_two]; rfl
  · simp only [Val.pow_two]; rfl

/-- C2: with `p_e = Kokp(delta*k1)`, `q_e = Kokp(ke)`, `p_o = Kokp(delta)` and
`q_o = Kokp(ko)`, the program computes `Er_even = (2*epsilon_r*q_e + p_e)/(2*q_e + p_e)`,
`Er_odd = (2*epsilon_r*q_o + p_o)/(2*q_o + p_o)`,
`Zeven = eta_0/(sqrt(Er_even)*(2*q_e + p_e))` and
`Zodd = eta_0/(sqrt(Er_odd)*(2*q_o + p_o))`, where `eta_0 = 120*pi`. -/
theorem mode_synthesizer_contract (E : ℝ → Val) (g : Globals) :
    Er_even E g = (2 * g.epsilon_r * Kokp E (ke g) + Kokp E (delta g * k1 g))
                    / (2 * Kokp E (ke g) + Kokp E (delta g * k1 g)) ∧
    Er_odd E g = (2 * g.epsilon_r * Kokp E (ko g) + Kokp E (delta g))
                    / (2 * Kokp E (ko g) + Kokp E (delta g)) ∧
    Zeven E g = eta_0 / (Val.sqrt (Er_even E g)
                    * (2 * Kokp E (ke g) + Kokp E (delta g * k1 g))) ∧
    Zodd E g = eta_0 / (Val.sqrt (Er_odd E g) * (2 * Kokp E (ko g) + Kokp E (delta g))) ∧
    eta_0 = 120 * pi :=
  ⟨rfl, rfl, rfl, rfl, rfl⟩

/-- C8: for every input the derived impedances are `Zdiff = 2*Zodd`, `Zcomm = Zeven/2`
and `Z0 = sqrt(Zeven*Zodd)`, on the program's own `Zeven` and `Zodd`. -/
theorem derived_impedances (E : ℝ → Val) (g : Globals) :
    Zdiff E g = 2 * Zodd E g ∧ Zcomm E g = Zeven E g / 2 ∧
    Z0 E g = Val.sqrt (Zeven E g * Zodd E g) :=
  ⟨Val.mul_swap _ _, rfl, rfl⟩

/-- C9: the conductor thickness `t` never enters the formula chain: the seven printed
values are the same for any two thicknesses. -/
theorem thickness_unused (E : ℝ → Val) (d S W h epsilon_r t1 t2 : Val) :
    outputs E (Globals.mk d S W t1 h epsilon_r) = outputs E (Globals.mk d S W t2 h epsilon_r) :=
  rfl

/-! ## The geometry reducer on a valid cross-section -/

/-- The ratio under the square root of `delta`, for `r = x` and `k1 = y`. -/
theorem delta_radicand_bounds {x y : ℝ} (hx0 : 0 < x) (hx1 : x < 1) (hy0 : 0 < y)
    (hy1 : y < 1) :
    0 < 1 - y * y * x * x ∧ 0 < (1 - x * x) / (1 - y * y * x * x) ∧
      (1 - x * x) / (1 - y * y * x * x) < 1 := by
  have hxx : x * x < 1 := by nlinarith
  have hyy : y * y < 1 := by nlinarith
  have hxx0 : 0 < x * x := by positivity
  have hden : 0 < 1 - y * y * x * x := by nlinarith
  refine ⟨hden, div_pos (by linarith) hden, ?_⟩
  rw [div_lt_one hden]
  nlinarith

/-- The geometry macros on real lengths with `0 < a < b < c`. -/
theorem geometry_values (g : Globals) (h0 : 0 < a g) (hab : a g < b g) (hbc : b g < c g) :
    ∃ x y z : ℝ, 0 < x ∧ x < y ∧ y < z ∧ a g = fin x ∧ b g = fin y ∧ c g = fin z ∧
      r g = fin (x / y) ∧ k1 g = fin (y / z) ∧
      delta g = fin (Real.sqrt ((1 - x / y * (x / y))
        / (1 - y / z * (y / z) * (x / y) * (x / y)))) := by
  rw [Val.lt_iff] at h0 hab hbc
  obtain ⟨o, x, ho, hx, hox⟩ := h0
  obtain ⟨x', y, hx', hy, hxy⟩ := hab
  obtain ⟨y', z, hy', hz, hyz⟩ := hbc
  have ho0 : o = 0 := by
    have : fin 0 = fin o := ho
    injection this with h; exact h.symm
  have e1 : x' = x := by rw [hx] at hx'; injection hx' with h; exact h.symm
  have e2 : y' = y := by rw [hy] at hy'; injection hy' with h; exact h.symm
  subst ho0 e1 e2
  have hy0 : 0 < y' := lt_trans hox hxy
  have hz0 : 0 < z := lt_trans hy0 hyz
  have hr0 : 0 < x' / y' := div_pos hox hy0
  have hr1 : x' / y' < 1 := (div_lt_one hy0).2 hxy
  have hk0 : 0 < y' / z := div_pos hy0 hz0
  have hk1 : y' / z < 1 := (div_lt_one hz0).2 hyz
  obtain ⟨hden, hq0, -⟩ := delta_radicand_bounds hr0 hr1 hk0 hk1
  have hr : r g = fin (x' / y') := by simp [r, hx, hy, hy0.ne']
  have hk : k1 g = fin (y' / z) := by simp [k1, hy, hz, hz0.ne']
  refine ⟨x', y', z, hox, hxy, hyz, hx, hy, hz, hr, hk, ?_⟩
  simp [delta, hr, hk, hden.ne', hq0.le]

/-- When `0 < a < b < c`, the ratios `r`, `k1` and the moduli `delta` and `delta*k1` lie
strictly between 0 and 1. -/
theorem moduli_bounds (g : Globals) (h0 : 0 < a g) (hab : a g < b g)
    (hbc : b g < c g) :
    (0 < r g ∧ r g < 1) ∧ (0 < k1 g ∧ k1 g < 1) ∧ (0 < delta g ∧ delta g < 1) ∧
      (0 < delta g * k1 g ∧ delta g * k1 g < 1) := by
  obtain ⟨x, y, z, hx, hxy, hyz, -, -, -, hr, hk, hd⟩ := geometry_values g h0 hab hbc
  have hy0 : 0 < y := lt_trans hx hxy
  have hz0 : 0 < z := lt_trans hy0 hyz
  have hr0 : 0 < x / y := div_pos hx hy0
  have hr1 : x / y < 1 := (div_lt_one hy0).2 hxy
  have hk0 : 0 < y / z := div_pos hy0 hz0
  have hk1 : y / z < 1 := (div_lt_one hz0).2 hyz
  obtain ⟨-, hq0, hq1⟩ := delta_radicand_bounds hr0 hr1 hk0 hk1
  have hs0 := Real.sqrt_pos.2 hq0
  have hs1 : Real.sqrt ((1 - x / y * (x / y)) / (1 - y / z * (y / z) * (x / y) * (x / y))) < 1 := by
    rw [Real.sqrt_lt' one_pos]; simpa using hq1
  rw [hr, hk, hd]
  simp only [Val.zero_def, Val.one_def, Val.fin_lt, Val.fin_mul]
  refine ⟨⟨hr0, hr1⟩, ⟨hk0, hk1⟩, ⟨hs0, hs1⟩, mul_pos hs0 hk0, ?_⟩
  calc _ < 1 * 1 := mul_lt_mul hs1 hk1.le hk0 zero_le_one
    _ = 1 := one_mul 1

/-! ## The elliptic integral -/

theorem ellint_radicand_pos {k : ℝ} (hk : |k| < 1) (θ : ℝ) :
    0 < 1 - k ^ 2 * Real.sin θ ^ 2 := by
  have h1 : k ^ 2 < 1 := by
    have := abs_nonneg k
    rw [← sq_abs]; nlinarith
  have h2 : Real.sin θ ^ 2 ≤ 1 := Real.sin_sq_le_one θ
  have h3 : 0 ≤ Real.sin θ ^ 2 := sq_nonneg _
  have h4 : 0 ≤ k ^ 2 := sq_nonneg _
  nlinarith

theorem ellint_integrand_continuous {k : ℝ} (hk : |k| < 1) :
    Continuous fun θ : ℝ => 1 / Real.sqrt (1 - k ^ 2 * Real.sin θ ^ 2) := by
  refine Continuous.div continuous_const ?_ ?_
  · exact Real.continuous_sqrt.comp
      (continuous_const.sub (continuous_const.mul (Real.continuous_sin.pow 2)))
  · intro θ
    exact (Real.sqrt_pos.2 (ellint_radicand_pos hk θ)).ne'

theorem ellipticK_pos {k : ℝ} (hk : |k| < 1) : 0 < ellipticK k := by
  unfold ellipticK
  apply intervalIntegral.intervalIntegral_pos_of_pos
  · exact (ellint_integrand_continuous hk).intervalIntegrable _ _
  · intro θ
    exact div_pos one_pos (Real.sqrt_pos.2 (ellint_radicand_pos hk θ))
  · exact half_pos Real.pi_pos

theorem ellipticK_lt {k m : ℝ} (hk0 : 0 ≤ k) (hkm : k < m) (hm : m < 1) :
    ellipticK k < ellipticK m := by
  have hk1 : |k| < 1 := by rw [abs_of_nonneg hk0]; linarith
  have hm1 : |m| < 1 := by rw [abs_of_nonneg (by linarith)]; exact hm
  have hsq : k ^ 2 < m ^ 2 := by nlinarith
  unfold ellipticK
  apply intervalIntegral.integral_lt_integral_of_continuousOn_of_le_of_exists_lt
    (half_pos Real.pi_pos) (ellint_integrand_continuous hk1).continuousOn
    (ellint_integrand_continuous hm1).continuousOn
  · intro θ _
    have hs : 0 ≤ Real.sin θ ^ 2 := sq_nonneg _
    apply one_div_le_one_div_of_le (Real.sqrt_pos.2 (ellint_radicand_pos hm1 θ))
    apply Real.sqrt_le_sqrt
    nlinarith
  · refine ⟨Real.pi / 2, ⟨(half_pos Real.pi_pos).le, le_refl _⟩, ?_⟩
    simp only [Real.sin_pi_div_two, one_pow, mul_one]
    have hm2 : 0 < 1 - m ^ 2 := by simpa using ellint_radicand_pos hm1 (Real.pi / 2)
    apply one_div_lt_one_div_of_lt (Real.sqrt_pos.2 hm2)
    apply Real.sqrt_lt_sqrt hm2.le
    linarith

/-! ## The modulus corrector on real arguments -/

/-- The quotient of `ke` and `ko` on real arguments. -/
theorem modulus_quotient_bounds {P u v : ℝ} (hP : 0 < P) (huP : u < P) (hvP : -P < v)
    (hvu : v < u)
    (hden : v * Real.sqrt (P * P - u * u) + u * Real.sqrt (P * P - v * v) ≠ 0) :
    0 < P * (-Real.sqrt (P * P - u * u) + Real.sqrt (P * P - v * v))
          / (v * Real.sqrt (P * P - u * u) + u * Real.sqrt (P * P - v * v)) ∧
      P * (-Real.sqrt (P * P - u * u) + Real.sqrt (P * P - v * v))
          / (v * Real.sqrt (P * P - u * u) + u * Real.sqrt (P * P - v * v)) < 1 := by
  have hu2 : 0 < P * P - u * u := by nlinarith
  have hv2 : 0 < P * P - v * v := by nlinarith
  set s := Real.sqrt (P * P - u * u) with hs
  set t := Real.sqrt (P * P - v * v) with ht
  have hs0 : 0 < s := Real.sqrt_pos.2 hu2
  have ht0 : 0 < t := Real.sqrt_pos.2 hv2
  have hss : s * s = P * P - u * u := Real.mul_self_sqrt hu2.le
  have htt : t * t = P * P - v * v := Real.mul_self_sqrt hv2.le
  -- the cross term is positive
  have hcross : 0 < u * t - v * s := by
    rcases le_or_lt 0 u with hu0 | hu0
    · rcases le_or_lt v 0 with hv0 | hv0
      · rcases eq_or_lt_of_le hu0 with h | h
        · have : v < 0 := by linarith
          nlinarith
        · nlinarith [mul_pos h ht0, mul_nonneg (neg_nonneg.2 hv0) hs0.le]
      · have hts : s < t := by
          by_contra hcon
          push_neg at hcon
          nlinarith [mul_le_mul hcon hcon ht0.le hs0.le]
        nlinarith [mul_pos hv0 (sub_pos.2 hts), mul_pos (sub_pos.2 hvu) ht0]
    · have hts : t < s := by
        by_contra hcon
        push_neg at hcon
        nlinarith [mul_le_mul hcon hcon hs0.le ht0.le]
      nlinarith [mul_pos (neg_pos.2 hu0) (sub_pos.2 hts), mul_pos (sub_pos.2 hvu) hs0]
  have hPts : 0 < P * (t + s) := by positivity
  have key : P * (-s + t) / (v * s + u * t) = (u * t - v * s) / (P * (t + s)) := by
    rw [div_eq_div_iff hden hPts.ne']
    have e1 : (u * t - v * s) * (v * s + u * t) = u * u * (t * t) - v * v * (s * s) := by ring
    have e2 : P * (-s + t) * (P * (t + s)) = P * P * (t * t - s * s) := by ring
    rw [e1, e2, hss, htt]; ring
  rw [key]
  refine ⟨div_pos hcross hPts, ?_⟩
  rw [div_lt_one hPts]
  nlinarith [mul_pos (sub_pos.2 huP) ht0, mul_pos (by linarith : 0 < P + v) hs0]

theorem pi_eq : pi = fin piR := rfl

theorem piR_pos : 0 < piR := by unfold piR; norm_num

/-- The library integral on its domain. -/
theorem comp_ellint_1_pos (x : ℝ) (h0 : 0 < x) (h1 : x < 1) : 0 < comp_ellint_1 x := by
  have hx : |x| < 1 := by rw [abs_of_pos h0]; exact h1
  simp [comp_ellint_1, hx, ellipticK_pos hx]

/-- The ratio `K/K'` of the source is positive on a modulus in `(0,1)`, for any library
function that is positive there. -/
theorem Kokp_pos (E : ℝ → Val) (hE : ∀ x, 0 < x → x < 1 → 0 < E x) (m : Val)
    (h0 : 0 < m) (h1 : m < 1) : 0 < Kokp E m := by
  cases m with
  | nan => simp at h0
  | fin x =>
    simp only [Val.zero_def, Val.one_def, Val.fin_lt] at h0 h1
    have hx2 : 0 < 1 - x * x := by nlinarith
    have hx3 : 1 - x * x < 1 := by nlinarith
    have hu := hE x h0 h1
    have hv := hE (1 - x * x) hx2 hx3
    rw [Val.lt_iff] at hu hv
    obtain ⟨o, u, ho, hu, hou⟩ := hu
    obtain ⟨o', v, ho', hv, hov⟩ := hv
    have e0 : o = 0 := by
      have : fin 0 = fin o := ho
      injection this with h; exact h.symm
    have e0' : o' = 0 := by
      have : fin 0 = fin o' := ho'
      injection this with h; exact h.symm
    subst e0 e0'
    simp [Kokp, K_prime, K, hu, hv, hov.ne', div_pos hou hov]

/-- The three scaled half-widths at which the hyperbolic terms are taken are positive and
increasing on a valid cross-section. -/
theorem scaled_widths_order {d S W h : ℝ} (hd : 0 < d) (hS : 0 < S) (hW : 0 < W)
    (hh : 0 < h) :
    0 < piR * d / (4 * h) ∧ piR * d / (4 * h) < piR / (2 * h) * (d / 2 + S) ∧
      piR / (2 * h) * (d / 2 + S) < piR / (2 * h) * (d / 2 + S + W) := by
  have hk : 0 < piR / (2 * h) := div_pos piR_pos (by positivity)
  have e : piR * d / (4 * h) = piR / (2 * h) * (d / 2) := by
    rw [div_mul_div_comm]; congr 1; ring
  rw [e]
  refine ⟨mul_pos hk (by positivity), ?_, ?_⟩
  · exact mul_lt_mul_of_pos_left (by linarith) hk
  · exact mul_lt_mul_of_pos_left (by linarith) hk

/-- Squares of hyperbolic sines keep the order of positive arguments. -/
theorem sinh_sq_order {A B : ℝ} (hA : 0 ≤ A) (hAB : A < B) :
    Real.sinh A ^ 2 < Real.sinh B ^ 2 := by
  have h1 : 0 ≤ Real.sinh A := Real.sinh_nonneg_iff.2 hA
  have h2 : Real.sinh A < Real.sinh B := Real.sinh_lt_sinh.2 hAB
  nlinarith

/-- The macros `phi1` .. `phi6` on real inputs with a nonzero thickness. -/
theorem hyperbolic_terms (g : Globals) {d S W h : ℝ} (hd : g.d = fin d) (hS : g.S = fin S)
    (hW : g.W = fin W) (hh : g.h = fin h) (h0 : h ≠ 0) :
    phi1 g = fin (0.5 * Real.cosh (piR / (2 * h) * (d / 2 + S + W)) ^ 2) ∧
    phi2 g = fin (Real.sinh (piR / (2 * h) * (d / 2 + S)) ^ 2
      - 0.5 * Real.cosh (piR / (2 * h) * (d / 2 + S + W)) ^ 2 + 1) ∧
    phi3 g = fin (Real.sinh (piR * d / (4 * h)) ^ 2
      - 0.5 * Real.cosh (piR / (2 * h) * (d / 2 + S + W)) ^ 2 + 1) ∧
    phi4 g = fin (0.5 * Real.sinh (piR / (2 * h) * (d / 2 + S + W)) ^ 2) ∧
    phi5 g = fin (Real.sinh (piR / (2 * h) * (d / 2 + S)) ^ 2
      - 0.5 * Real.sinh (piR / (2 * h) * (d / 2 + S + W)) ^ 2) ∧
    phi6 g = fin (Real.sinh (piR * d / (4 * h)) ^ 2
      - 0.5 * Real.sinh (piR / (2 * h) * (d / 2 + S + W)) ^ 2) := by
  simp [phi1, phi2, phi3, phi4, phi5, phi6, b, c, pi_eq, hd, hS, hW, hh, h0]

/-- The common shape of lines 51 and 52 on real terms with nonnegative radicands. -/
theorem modulus_shape (P u v : ℝ) (hu : 0 ≤ P * P - u * u) (hv : 0 ≤ P * P - v * v) :
    fin v * Val.sqrt (fin P * fin P - (fin u * fin u))
        + fin u * Val.sqrt (fin P * fin P - (fin v * fin v))
      = fin (v * Real.sqrt (P * P - u * u) + u * Real.sqrt (P * P - v * v)) ∧
    fin P * (-Val.sqrt (fin P * fin P - (fin u * fin u))
          + Val.sqrt (fin P * fin P - (fin v * fin v)))
        / (fin v * Val.sqrt (fin P * fin P - (fin u * fin u))
          + fin u * Val.sqrt (fin P * fin P - (fin v * fin v)))
      = if v * Real.sqrt (P * P - u * u) + u * Real.sqrt (P * P - v * v) = 0 then nan
        else fin (P * (-Real.sqrt (P * P - u * u) + Real.sqrt (P * P - v * v))
          / (v * Real.sqrt (P * P - u * u) + u * Real.sqrt (P * P - v * v))) := by
  simp [hu, hv]

/-- The common shape of lines 51 and 52: a value strictly between 0 and 1 whenever the
divisor is not zero. -/
theorem modulus_bounds {P u v : ℝ} (hP : 0 < P) (huP : u < P) (hvP : -P < v) (hvu : v < u)
    (hden : fin v * Val.sqrt (fin P * fin P - (fin u * fin u))
        + fin u * Val.sqrt (fin P * fin P - (fin v * fin v)) ≠ 0) :
    0 < fin P * (-Val.sqrt (fin P * fin P - (fin u * fin u))
          + Val.sqrt (fin P * fin P - (fin v * fin v)))
        / (fin v * Val.sqrt (fin P * fin P - (fin u * fin u))
          + fin u * Val.sqrt (fin P * fin P - (fin v * fin v))) ∧
    fin P * (-Val.sqrt (fin P * fin P - (fin u * fin u))
          + Val.sqrt (fin P * fin P - (fin v * fin v)))
        / (fin v * Val.sqrt (fin P * fin P - (fin u * fin u))
          + fin u * Val.sqrt (fin P * fin P - (fin v * fin v))) < 1 := by
  have hu2 : 0 ≤ P * P - u * u := by nlinarith
  have hv2 : 0 ≤ P * P - v * v := by nlinarith
  obtain ⟨e1, e2⟩ := modulus_shape P u v hu2 hv2
  rw [e1] at hden
  have hD : v * Real.sqrt (P * P - u * u) + u * Real.sqrt (P * P - v * v) ≠ 0 := by
    intro h; apply hden; rw [h]; rfl
  rw [e2, if_neg hD]
  exact modulus_quotient_bounds hP huP hvP hvu hD

/-- The even-mode modulus is a valid elliptic modulus wherever its divisor is nonzero. -/
theorem ke_bounds (g : Globals) (hd : 0 < g.d) (hS : 0 < g.S) (hW : 0 < g.W)
    (hh : 0 < g.h) (hden : ke_den g ≠ 0) : 0 < ke g ∧ ke g < 1 := by
  obtain ⟨d, ed, hd⟩ := Val.pos_iff.1 hd
  obtain ⟨S, eS, hS⟩ := Val.pos_iff.1 hS
  obtain ⟨W, eW, hW⟩ := Val.pos_iff.1 hW
  obtain ⟨h, eh, hh⟩ := Val.pos_iff.1 hh
  obtain ⟨p1, p2, p3, -, -, -⟩ := hyperbolic_terms g ed eS eW eh hh.ne'
  obtain ⟨hA, hAB, hBC⟩ := scaled_widths_order hd hS hW hh
  have hB : 0 < piR / (2 * h) * (d / 2 + S) := lt_trans hA hAB
  have o1 := sinh_sq_order hA.le hAB
  have o2 := sinh_sq_order hB.le hBC
  have o0 : 0 ≤ Real.sinh (piR * d / (4 * h)) ^ 2 := sq_nonneg _
  have hc := Real.cosh_sq (piR / (2 * h) * (d / 2 + S + W))
  unfold ke_den at hden
  unfold ke
  rw [p1, p2, p3] at hden ⊢
  apply modulus_bounds _ _ _ _ hden <;> nlinarith

/-- The odd-mode modulus is a valid elliptic modulus wherever its divisor is nonzero. -/
theorem ko_bounds (g : Globals) (hd : 0 < g.d) (hS : 0 < g.S) (hW : 0 < g.W)
    (hh : 0 < g.h) (hden : ko_den g ≠ 0) : 0 < ko g ∧ ko g < 1 := by
  obtain ⟨d, ed, hd⟩ := Val.pos_iff.1 hd
  obtain ⟨S, eS, hS⟩ := Val.pos_iff.1 hS
  obtain ⟨W, eW, hW⟩ := Val.pos_iff.1 hW
  obtain ⟨h, eh, hh⟩ := Val.pos_iff.1 hh
  obtain ⟨-, -, -, p4, p5, p6⟩ := hyperbolic_terms g ed eS eW eh hh.ne'
  obtain ⟨hA, hAB, hBC⟩ := scaled_widths_order hd hS hW hh
  have hB : 0 < piR / (2 * h) * (d / 2 + S) := lt_trans hA hAB
  have o1 := sinh_sq_order hA.le hAB
  have o2 := sinh_sq_order hB.le hBC
  have o0 : 0 < Real.sinh (piR * d / (4 * h)) ^ 2 :=
    pow_pos (Real.sinh_pos_iff.2 hA) 2
  unfold ko_den at hden
  unfold ko
  rw [p4, p5, p6] at hden ⊢
  apply modulus_bounds _ _ _ _ hden <;> nlinarith

/-- Positive `d`, `S`, `W` give `0 < a < b < c`. -/
theorem valid_cross_section (g : Globals) (hd : 0 < g.d) (hS : 0 < g.S) (hW : 0 < g.W) :
    0 < a g ∧ a g < b g ∧ b g < c g := by
  obtain ⟨d, ed, hd⟩ := Val.pos_iff.1 hd
  obtain ⟨S, eS, hS⟩ := Val.pos_iff.1 hS
  obtain ⟨W, eW, hW⟩ := Val.pos_iff.1 hW
  simp [a, b, c, ed, eS, eW]
  exact ⟨hd, hS, hW⟩

/-- The permittivity and impedance formulas on positive elliptic ratios. -/
theorem synthesizer_bounds (e q p : Val) (he : 1 ≤ e) (hq : 0 < q) (hp : 0 < p) :
    1 ≤ (2 * e * q + p) / (2 * q + p) ∧
      0 < eta_0 / (Val.sqrt ((2 * e * q + p) / (2 * q + p)) * (2 * q + p)) := by
  obtain ⟨e, rfl, he⟩ := Val.one_le_iff.1 he
  obtain ⟨q, rfl, hq⟩ := Val.pos_iff.1 hq
  obtain ⟨p, rfl, hp⟩ := Val.pos_iff.1 hp
  have hden : 0 < 2 * q + p := by linarith
  have hnum : 2 * q + p ≤ 2 * e * q + p := by nlinarith
  have hEr : 1 ≤ (2 * e * q + p) / (2 * q + p) := (one_le_div hden).2 hnum
  have hEr0 : 0 ≤ (2 * e * q + p) / (2 * q + p) := le_trans zero_le_one hEr
  have hs : 0 < Real.sqrt ((2 * e * q + p) / (2 * q + p)) :=
    Real.sqrt_pos.2 (lt_of_lt_of_le one_pos hEr)
  have hpi := piR_pos
  simp [eta_0, pi_eq, hden.ne', hEr, hEr0, hs.ne']
  positivity

/-- The permittivity formula is increasing in `epsilon_r` on positive elliptic ratios. -/
theorem synthesizer_mono (e1 e2 q p : Val) (he : e1 < e2) (hq : 0 < q) (hp : 0 < p) :
    (2 * e1 * q + p) / (2 * q + p) ≤ (2 * e2 * q + p) / (2 * q + p) := by
  obtain ⟨x1, x2, rfl, rfl, he⟩ := Val.lt_iff.1 he
  obtain ⟨q, rfl, hq⟩ := Val.pos_iff.1 hq
  obtain ⟨p, rfl, hp⟩ := Val.pos_iff.1 hp
  have hden : 0 < 2 * q + p := by linarith
  simp [hden.ne']
  apply div_le_div_of_nonneg_right _ hden.le
  nlinarith

/-- The even-mode outputs for any library function positive on `(0,1)`. -/
theorem even_mode_bounds (E : ℝ → Val) (hE : ∀ x, 0 < x → x < 1 → 0 < E x) (g : Globals)
    (hd : 0 < g.d) (hS : 0 < g.S) (hW : 0 < g.W) (hh : 0 < g.h) (he : 1 ≤ g.epsilon_r)
    (hden : ke_den g ≠ 0) : 0 < Zeven E g ∧ 1 ≤ Er_even E g := by
  obtain ⟨h0, hab, hbc⟩ := valid_cross_section g hd hS hW
  obtain ⟨-, -, -, hm0, hm1⟩ := moduli_bounds g h0 hab hbc
  obtain ⟨hk0, hk1⟩ := ke_bounds g hd hS hW hh hden
  have hq := Kokp_pos E hE (ke g) hk0 hk1
  have hp := Kokp_pos E hE (delta g * k1 g) hm0 hm1
  obtain ⟨h1, h2⟩ := synthesizer_bounds g.epsilon_r _ _ he hq hp
  exact ⟨h2, h1⟩

/-- The odd-mode outputs for any library function positive on `(0,1)`. -/
theorem odd_mode_bounds (E : ℝ → Val) (hE : ∀ x, 0 < x → x < 1 → 0 < E x) (g : Globals)
    (hd : 0 < g.d) (hS : 0 < g.S) (hW : 0 < g.W) (hh : 0 < g.h) (he : 1 ≤ g.epsilon_r)
    (hden : ko_den g ≠ 0) : 0 < Zodd E g ∧ 1 ≤ Er_odd E g := by
  obtain ⟨h0, hab, hbc⟩ := valid_cross_section g hd hS hW
  obtain ⟨-, -, ⟨hm0, hm1⟩, -⟩ := moduli_bounds g h0 hab hbc
  obtain ⟨hk0, hk1⟩ := ko_bounds g hd hS hW hh hden
  have hq := Kokp_pos E hE (ko g) hk0 hk1
  have hp := Kokp_pos E hE (delta g) hm0 hm1
  obtain ⟨h1, h2⟩ := synthesizer_bounds g.epsilon_r _ _ he hq hp
  exact ⟨h2, h1⟩

/-- A cross-section given by increasing positive hyperbolic sines is valid. -/
theorem hyperbolic_input_valid {sa sb sc : ℝ} (ha : 0 < sa) (hab : sa < sb) (hbc : sb < sc)
    (t e : Val) :
    0 < (hyperbolic_input sa sb sc t e).d ∧ 0 < (hyperbolic_input sa sb sc t e).S ∧
      0 < (hyperbolic_input sa sb sc t e).W ∧ 0 < (hyperbolic_input sa sb sc t e).h := by
  have h1 : 0 < Real.arsinh sa := Real.arsinh_pos_iff.2 ha
  have h2 : Real.arsinh sa < Real.arsinh sb := Real.arsinh_lt_arsinh.2 hab
  have h3 : Real.arsinh sb < Real.arsinh sc := Real.arsinh_lt_arsinh.2 hbc
  have hpi := piR_pos
  simp [hyperbolic_input, pi_eq]
  exact ⟨ha, hab, hbc, hpi⟩

/-- The hyperbolic terms of a cross-section given by its hyperbolic sines. -/
theorem hyperbolic_input_terms (sa sb sc : ℝ) (t e : Val) :
    phi1 (hyperbolic_input sa sb sc t e) = fin (0.5 * (sc ^ 2 + 1)) ∧
    phi2 (hyperbolic_input sa sb sc t e) = fin (sb ^ 2 - 0.5 * (sc ^ 2 + 1) + 1) ∧
    phi3 (hyperbolic_input sa sb sc t e) = fin (sa ^ 2 - 0.5 * (sc ^ 2 + 1) + 1) ∧
    phi4 (hyperbolic_input sa sb sc t e) = fin (0.5 * sc ^ 2) ∧
    phi5 (hyperbolic_input sa sb sc t e) = fin (sb ^ 2 - 0.5 * sc ^ 2) ∧
    phi6 (hyperbolic_input sa sb sc t e) = fin (sa ^ 2 - 0.5 * sc ^ 2) := by
  have hpi := piR_pos
  have hh : (hyperbolic_input sa sb sc t e).h = fin (piR / 2) := by
    simp [hyperbolic_input, pi_eq]
  have e0 : piR / (2 * (piR / 2)) = 1 := by field_simp
  have eA : piR * (2 * Real.arsinh sa) / (4 * (piR / 2)) = Real.arsinh sa := by
    field_simp; ring
  have eB : piR / (2 * (piR / 2))
      * (2 * Real.arsinh sa / 2 + (Real.arsinh sb - Real.arsinh sa)) = Real.arsinh sb := by
    rw [e0]; ring
  have eC : piR / (2 * (piR / 2))
      * (2 * Real.arsinh sa / 2 + (Real.arsinh sb - Real.arsinh sa)
        + (Real.arsinh sc - Real.arsinh sb)) = Real.arsinh sc := by
    rw [e0]; ring
  obtain ⟨p1, p2, p3, p4, p5, p6⟩ :=
    hyperbolic_terms (hyperbolic_input sa sb sc t e) rfl rfl rfl hh (by positivity)
  rw [eA, eB, eC] at *
  simp only [Real.cosh_sq, Real.sinh_arsinh] at *
  exact ⟨p1, p2, p3, p4, p5, p6⟩

/-- At the degenerate cross-section the divisor of `ke` is zero and `ke` has no value. -/
theorem degenerate_ke (e : Val) :
    ke_den (degenerate_input e) = 0 ∧ ke (degenerate_input e) = nan := by
  obtain ⟨p1, p2, p3, -, -, -⟩ := hyperbolic_input_terms 4 8 9 0.035 e
  have p1 : phi1 (hyperbolic_input 4 8 9 0.035 e) = fin 41 := by rw [p1]; norm_num
  have p2 : phi2 (hyperbolic_input 4 8 9 0.035 e) = fin 24 := by rw [p2]; norm_num
  have p3 : phi3 (hyperbolic_input 4 8 9 0.035 e) = fin (-24) := by rw [p3]; norm_num
  have hr : (0 : ℝ) ≤ 41 * 41 - 24 * 24 := by norm_num
  have hr' : (0 : ℝ) ≤ 41 * 41 - (-24) * (-24) := by norm_num
  obtain ⟨e1, e2⟩ := modulus_shape 41 24 (-24) hr hr'
  have hD : (-24 : ℝ) * Real.sqrt (41 * 41 - 24 * 24)
      + 24 * Real.sqrt (41 * 41 - (-24) * (-24)) = 0 := by
    norm_num
  rw [hD] at e1
  rw [if_pos hD] at e2
  unfold degenerate_input ke_den ke
  rw [p1, p2, p3]
  exact ⟨e1, e2⟩

/-- Whatever the library function, no even-mode output has a value once `ke` has none. -/
theorem even_mode_nan (E : ℝ → Val) (g : Globals) (h : ke g = nan) :
    Er_even E g = nan ∧ Zeven E g = nan := by
  have hq : Kokp E (ke g) = nan := by simp [Kokp, K, h]
  have h1 : Er_even E g = nan := by simp [Er_even, hq]
  exact ⟨h1, by simp [Zeven, h1]⟩

/-- At the regular cross-section neither divisor is zero. -/
theorem regular_divisors (e : Val) :
    ke_den (regular_input e) ≠ 0 ∧ ko_den (regular_input e) ≠ 0 := by
  obtain ⟨p1, p2, p3, p4, p5, p6⟩ := hyperbolic_input_terms 1 2 3 0.035 e
  have p1 : phi1 (hyperbolic_input 1 2 3 0.035 e) = fin 5 := by rw [p1]; norm_num
  have p2 : phi2 (hyperbolic_input 1 2 3 0.035 e) = fin 0 := by rw [p2]; norm_num
  have p3 : phi3 (hyperbolic_input 1 2 3 0.035 e) = fin (-3) := by rw [p3]; norm_num
  have p4 : phi4 (hyperbolic_input 1 2 3 0.035 e) = fin (9 / 2) := by rw [p4]; norm_num
  have p5 : phi5 (hyperbolic_input 1 2 3 0.035 e) = fin (-(1 / 2)) := by rw [p5]; norm_num
  have p6 : phi6 (hyperbolic_input 1 2 3 0.035 e) = fin (-(7 / 2)) := by rw [p6]; norm_num
  have s1 : 0 < Real.sqrt (5 * 5 - 0 * 0) := Real.sqrt_pos.2 (by norm_num)
  have s2 : 0 < Real.sqrt (9 / 2 * (9 / 2) - -(1 / 2) * -(1 / 2)) :=
    Real.sqrt_pos.2 (by norm_num)
  have s3 : 0 < Real.sqrt (9 / 2 * (9 / 2) - -(7 / 2) * -(7 / 2)) :=
    Real.sqrt_pos.2 (by norm_num)
  obtain ⟨e1, -⟩ := modulus_shape 5 0 (-3) (by norm_num) (by norm_num)
  obtain ⟨e2, -⟩ := modulus_shape (9 / 2) (-(1 / 2)) (-(7 / 2)) (by norm_num) (by norm_num)
  unfold regular_input ke_den ko_den
  rw [p1, p2, p3, p4, p5, p6, e1, e2]
  constructor
  · intro h
    have h' : fin (-3 * Real.sqrt (5 * 5 - 0 * 0) + 0 * Real.sqrt (5 * 5 - -3 * -3))
        = fin 0 := h
    injection h' with h'
    linarith
  · intro h
    have h' : fin (-(7 / 2) * Real.sqrt (9 / 2 * (9 / 2) - -(1 / 2) * -(1 / 2))
        + -(1 / 2) * Real.sqrt (9 / 2 * (9 / 2) - -(7 / 2) * -(7 / 2))) = fin 0 := h
    injection h' with h'
    linarith

/-- The library integral on its domain, as a value. -/
theorem comp_ellint_1_eq {x : ℝ} (h0 : 0 ≤ x) (h1 : x < 1) :
    comp_ellint_1 x = fin (ellipticK x) := by
  have hx : |x| < 1 := by rw [abs_of_nonneg h0]; exact h1
  simp [comp_ellint_1, hx]

/-- C1: `K_prime(m)` is `K(1 - m*m)` for every `m`, not `K(sqrt(1 - m^2))`.  At `m = 0.5`
the code returns the integral at modulus `0.75`, the complementary modulus is
`sqrt 0.75`, and the integral is strictly smaller at the former; `Kokp(0.5)` differs
accordingly from `K(0.5)/K(sqrt(1 - 0.5^2))`. -/
theorem K_prime_misses_sqrt :
    (∀ (E : ℝ → Val) (m : Val), K_prime E m = K E (1 - m * m)) ∧
    K_prime comp_ellint_1 0.5 = fin (ellipticK 0.75) ∧
    K comp_ellint_1 (Val.sqrt (1 - Val.pow 0.5 2)) = fin (ellipticK (Real.sqrt 0.75)) ∧
    K_prime comp_ellint_1 0.5 < K comp_ellint_1 (Val.sqrt (1 - Val.pow 0.5 2)) ∧
    Kokp comp_ellint_1 0.5
      ≠ K comp_ellint_1 0.5 / K comp_ellint_1 (Val.sqrt (1 - Val.pow 0.5 2)) := by
  have e1 : (1 : ℝ) - 0.5 * 0.5 = 0.75 := by norm_num
  have e2 : (1 : ℝ) - 0.5 ^ 2 = 0.75 := by norm_num
  have hs0 : (0 : ℝ) ≤ Real.sqrt 0.75 := Real.sqrt_nonneg _
  have hs1 : Real.sqrt 0.75 < 1 := by
    rw [Real.sqrt_lt' one_pos]; norm_num
  have hlt : (0.75 : ℝ) < Real.sqrt 0.75 := by
    rw [Real.lt_sqrt (by norm_num)]; norm_num
  have c1 : K_prime comp_ellint_1 0.5 = fin (ellipticK 0.75) := by
    simp only [K_prime, K, Val.ofScientific_def, Val.one_def, Val.fin_mul, Val.fin_sub, e1]
    exact comp_ellint_1_eq (by norm_num) (by norm_num)
  have c2 : K comp_ellint_1 (Val.sqrt (1 - Val.pow 0.5 2))
      = fin (ellipticK (Real.sqrt 0.75)) := by
    simp only [K, Val.ofScientific_def, Val.one_def, Val.pow_fin, Val.fin_sub, e2,
      Val.sqrt_fin]
    rw [if_pos (by norm_num)]
    exact comp_ellint_1_eq hs0 hs1
  have c3 : ellipticK 0.75 < ellipticK (Real.sqrt 0.75) :=
    ellipticK_lt (by norm_num) hlt hs1
  have c4 : K comp_ellint_1 0.5 = fin (ellipticK 0.5) := by
    simp only [K, Val.ofScientific_def]
    exact comp_ellint_1_eq (by norm_num) (by norm_num)
  have p1 : 0 < ellipticK 0.5 := ellipticK_pos (by rw [abs_of_nonneg] <;> norm_num)
  have p2 : 0 < ellipticK 0.75 := ellipticK_pos (by rw [abs_of_nonneg] <;> norm_num)
  have p3 : 0 < ellipticK (Real.sqrt 0.75) := lt_trans p2 c3
  refine ⟨fun _ _ => rfl, c1, c2, ?_, ?_⟩
  · rw [c1, c2]; exact c3
  · unfold Kokp
    rw [c1, c2, c4]
    simp only [Val.fin_div, if_neg p2.ne', if_neg p3.ne']
    intro h
    injection h with h
    rw [div_eq_div_iff p2.ne' p3.ne'] at h
    have := mul_left_cancel₀ p1.ne' h
    linarith

/-! ## The odd-mode modulus far from the ground plane -/

/-- The value of `delta` on real lengths of a valid cross-section. -/
theorem delta_value {d S W : ℝ} (hd : 0 < d) (hS : 0 < S) (hW : 0 < W) (t h e : Val) :
    delta (Globals.mk (fin d) (fin S) (fin W) t h e)
      = fin (Real.sqrt ((1 - d / 2 / (d / 2 + S) * (d / 2 / (d / 2 + S)))
          / (1 - (d / 2 + S) / (d / 2 + S + W) * ((d / 2 + S) / (d / 2 + S + W))
            * (d / 2 / (d / 2 + S)) * (d / 2 / (d / 2 + S))))) := by
  have hb : 0 < d / 2 + S := by positivity
  have hc : 0 < d / 2 + S + W := by positivity
  have hr0 : 0 < d / 2 / (d / 2 + S) := div_pos (by positivity) hb
  have hr1 : d / 2 / (d / 2 + S) < 1 := (div_lt_one hb).2 (by linarith)
  have hk0 : 0 < (d / 2 + S) / (d / 2 + S + W) := div_pos hb hc
  have hk1 : (d / 2 + S) / (d / 2 + S + W) < 1 := (div_lt_one hc).2 (by linarith)
  obtain ⟨hden, hq0, -⟩ := delta_radicand_bounds hr0 hr1 hk0 hk1
  simp [delta, r, k1, a, b, c, hb.ne', hc.ne', hden.ne', hq0.le]

/-- As `W` grows, `delta` tends to `sqrt (1 - r*r)` with `r = a/b`. -/
theorem delta_limit {d S : ℝ} (hd : 0 < d) (hS : 0 < S) (t h e : Val) :
    Filter.Tendsto (fun W : ℝ => (delta (Globals.mk (fin d) (fin S) (fin W) t h e)).toReal)
      Filter.atTop (nhds (Real.sqrt (1 - d / 2 / (d / 2 + S) * (d / 2 / (d / 2 + S))))) := by
  set y := d / 2 + S with hy
  set x := d / 2 / y with hx
  have hk : Filter.Tendsto (fun W : ℝ => y / (y + W)) Filter.atTop (nhds 0) :=
    tendsto_const_nhds.div_atTop (Filter.tendsto_atTop_add_const_left _ y Filter.tendsto_id)
  have hcont : ContinuousAt
      (fun k : ℝ => Real.sqrt ((1 - x * x) / (1 - k * k * x * x))) 0 := by
    apply ContinuousAt.sqrt
    apply ContinuousAt.div continuousAt_const
    · exact (continuous_const.sub (((continuous_id.mul continuous_id).mul
        continuous_const).mul continuous_const)).continuousAt
    · simp
  have hlim := hcont.tendsto.comp hk
  simp only [zero_mul, sub_zero, div_one] at hlim
  refine hlim.congr' ?_
  filter_upwards [Filter.eventually_gt_atTop 0] with W hW
  rw [delta_value hd hS hW]
  rfl

/-- The limit of `delta` for `W` large lies strictly between 0 and 1. -/
theorem delta_limit_bounds {d S : ℝ} (hd : 0 < d) (hS : 0 < S) :
    0 < Real.sqrt (1 - d / 2 / (d / 2 + S) * (d / 2 / (d / 2 + S))) ∧
      Real.sqrt (1 - d / 2 / (d / 2 + S) * (d / 2 / (d / 2 + S))) < 1 := by
  have hb : 0 < d / 2 + S := by positivity
  have hr0 : 0 < d / 2 / (d / 2 + S) := div_pos (by positivity) hb
  have hr1 : d / 2 / (d / 2 + S) < 1 := (div_lt_one hb).2 (by linarith)
  constructor
  · apply Real.sqrt_pos.2; nlinarith
  · rw [Real.sqrt_lt' one_pos]; nlinarith

/-- C10, as amended: for fixed `d > 0` and `S > 0`, `delta` has a value for every `W > 0`
and, as `W` tends to `+∞`, it tends to `sqrt (1 - r^2)` with `r = a/b = (d/2)/(d/2+S)`,
a limit strictly between 0 and 1. -/
theorem delta_far_ground (d S : ℝ) (hd : 0 < d) (hS : 0 < S) (t h e : Val) :
    (∀ W : ℝ, 0 < W → 0 < delta (Globals.mk (fin d) (fin S) (fin W) t h e)) ∧
    Filter.Tendsto (fun W : ℝ => (delta (Globals.mk (fin d) (fin S) (fin W) t h e)).toReal)
      Filter.atTop (nhds (Real.sqrt (1 - (d / 2 / (d / 2 + S)) ^ 2))) ∧
    0 < Real.sqrt (1 - (d / 2 / (d / 2 + S)) ^ 2) ∧
    Real.sqrt (1 - (d / 2 / (d / 2 + S)) ^ 2) < 1 := by
  rw [sq]
  refine ⟨fun W hW => ?_, delta_limit hd hS t h e, delta_limit_bounds hd hS⟩
  have hv := valid_cross_section (Globals.mk (fin d) (fin S) (fin W) t h e)
    (by simpa using hd) (by simpa using hS) (by simpa using hW)
  exact (moduli_bounds _ hv.1 hv.2.1 hv.2.2).2.2.1.1

/-- C10 as stated fails: for `d = 2` and `S = 1` the modulus `delta` does not tend to 1
as `W` tends to `+∞`. -/
theorem delta_far_ground_counterexample :
    (0 : ℝ) < 2 ∧ (0 : ℝ) < 1 ∧
    ¬ Filter.Tendsto
        (fun W : ℝ => (delta (Globals.mk (fin 2) (fin 1) (fin W) 0.035 1.593 4.5)).toReal)
        Filter.atTop (nhds 1) := by
  refine ⟨by norm_num, by norm_num, fun h => ?_⟩
  have hl := delta_limit (by norm_num : (0 : ℝ) < 2) (by norm_num : (0 : ℝ) < 1)
    0.035 1.593 4.5
  have hb := (delta_limit_bounds (by norm_num : (0 : ℝ) < 2) (by norm_num : (0 : ℝ) < 1)).2
  have := tendsto_nhds_unique h hl
  linarith

/-- Witness for C10: `d = 2`, `S = 1`, where the limit is `sqrt (1 - (1/2)^2)`. -/
theorem delta_far_ground_witness :
    ((0 : ℝ) < 2 ∧ (0 : ℝ) < 1) ∧
    (∀ W : ℝ, 0 < W → 0 < delta (Globals.mk (fin 2) (fin 1) (fin W) 0.035 1.593 4.5)) ∧
    Filter.Tendsto
      (fun W : ℝ => (delta (Globals.mk (fin 2) (fin 1) (fin W) 0.035 1.593 4.5)).toReal)
      Filter.atTop (nhds (Real.sqrt (1 - (2 / 2 / (2 / 2 + 1)) ^ 2))) ∧
    0 < Real.sqrt (1 - ((2 : ℝ) / 2 / (2 / 2 + 1)) ^ 2) ∧
    Real.sqrt (1 - ((2 : ℝ) / 2 / (2 / 2 + 1)) ^ 2) < 1 :=
  ⟨⟨by norm_num, by norm_num⟩,
    delta_far_ground 2 1 (by norm_num) (by norm_num) 0.035 1.593 4.5⟩

/-! ## The command line -/

/-- C11: whenever the number of arguments after the program name is not six, `main`
writes the fixed usage text and nothing else, whatever the library functions and the
arguments are, and exits with status 0. -/
theorem usage_on_wrong_count (E : ℝ → Val) (atof : String → Val) (prog : String)
    (args : List String) (h : args.length ≠ 6) :
    main E atof (prog :: args) = ([Piece.text usage_text], 0) := by
  have h7 : (prog :: args).length ≠ 7 := by
    simp only [List.length_cons]; omega
  unfold main
  rw [if_pos h7]

/-- Witness for C11: three arguments after the program name. -/
theorem usage_on_wrong_count_witness :
    ["0.2", "0.41", "0.2"].length ≠ 6 ∧
      main comp_ellint_1 atof_zero ["edge_coupled_cpwg", "0.2", "0.41", "0.2"]
        = ([Piece.text usage_text], 0) :=
  ⟨by decide,
    usage_on_wrong_count comp_ellint_1 atof_zero "edge_coupled_cpwg" ["0.2", "0.41", "0.2"]
      (by decide)⟩

/-! ## The radicands and divisors of the modulus corrector -/

/-- The terms under lines 51 and 52 on a valid cross-section: real numbers `P`, `u`, `v`
with `-P < v < u < P`, for the even and for the odd mode. -/
theorem hyperbolic_terms_order (g : Globals) (hd : 0 < g.d) (hS : 0 < g.S) (hW : 0 < g.W)
    (hh : 0 < g.h) :
    ∃ P u v Q x y : ℝ, phi1 g = fin P ∧ phi2 g = fin u ∧ phi3 g = fin v ∧
      phi4 g = fin Q ∧ phi5 g = fin x ∧ phi6 g = fin y ∧
      (0 < P ∧ u < P ∧ -P < v ∧ v < u) ∧ (0 < Q ∧ x < Q ∧ -Q < y ∧ y < x) := by
  obtain ⟨d, ed, hd⟩ := Val.pos_iff.1 hd
  obtain ⟨S, eS, hS⟩ := Val.pos_iff.1 hS
  obtain ⟨W, eW, hW⟩ := Val.pos_iff.1 hW
  obtain ⟨h, eh, hh⟩ := Val.pos_iff.1 hh
  obtain ⟨p1, p2, p3, p4, p5, p6⟩ := hyperbolic_terms g ed eS eW eh hh.ne'
  obtain ⟨hA, hAB, hBC⟩ := scaled_widths_order hd hS hW hh
  have hB : 0 < piR / (2 * h) * (d / 2 + S) := lt_trans hA hAB
  have o1 := sinh_sq_order hA.le hAB
  have o2 := sinh_sq_order hB.le hBC
  have o0 : 0 < Real.sinh (piR * d / (4 * h)) ^ 2 := pow_pos (Real.sinh_pos_iff.2 hA) 2
  have hc := Real.cosh_sq (piR / (2 * h) * (d / 2 + S + W))
  refine ⟨_, _, _, _, _, _, p1, p2, p3, p4, p5, p6, ⟨?_, ?_, ?_, ?_⟩, ?_, ?_, ?_, ?_⟩ <;>
    nlinarith

/-- C12: for strictly positive `d`, `S`, `W`, `h` every quantity under a square root of
`ke` and `ko` is strictly positive. -/
theorem radicands_positive (g : Globals) (hd : 0 < g.d) (hS : 0 < g.S) (hW : 0 < g.W)
    (hh : 0 < g.h) :
    0 < Val.pow (phi1 g) 2 - Val.pow (phi2 g) 2 ∧
    0 < Val.pow (phi1 g) 2 - Val.pow (phi3 g) 2 ∧
    0 < Val.pow (phi4 g) 2 - Val.pow (phi5 g) 2 ∧
    0 < Val.pow (phi4 g) 2 - Val.pow (phi6 g) 2 := by
  obtain ⟨P, u, v, Q, x, y, p1, p2, p3, p4, p5, p6, ⟨hP, huP, hvP, hvu⟩, hQ, hxQ, hyQ, hyx⟩ :=
    hyperbolic_terms_order g hd hS hW hh
  rw [p1, p2, p3, p4, p5, p6]
  simp only [Val.pow_fin, Val.fin_sub, Val.zero_def, Val.fin_lt]
  refine ⟨?_, ?_, ?_, ?_⟩ <;> nlinarith

/-- Witness for C12: the regular cross-section. -/
theorem radicands_positive_witness :
    (0 < (regular_input 4.5).d ∧ 0 < (regular_input 4.5).S ∧ 0 < (regular_input 4.5).W ∧
      0 < (regular_input 4.5).h) ∧
    0 < Val.pow (phi1 (regular_input 4.5)) 2 - Val.pow (phi2 (regular_input 4.5)) 2 ∧
    0 < Val.pow (phi1 (regular_input 4.5)) 2 - Val.pow (phi3 (regular_input 4.5)) 2 ∧
    0 < Val.pow (phi4 (regular_input 4.5)) 2 - Val.pow (phi5 (regular_input 4.5)) 2 ∧
    0 < Val.pow (phi4 (regular_input 4.5)) 2 - Val.pow (phi6 (regular_input 4.5)) 2 := by
  obtain ⟨hd, hS, hW, hh⟩ :=
    hyperbolic_input_valid (by norm_num : (0 : ℝ) < 1) (by norm_num : (1 : ℝ) < 2)
      (by norm_num : (2 : ℝ) < 3) 0.035 4.5
  exact ⟨⟨hd, hS, hW, hh⟩, radicands_positive (regular_input 4.5) hd hS hW hh⟩

/-- On real terms with `-P < v < u < P`, the divisor and the dividend of line 51 vanish
exactly when `u + v = 0`. -/
theorem zero_over_zero_iff {P u v : ℝ} (huP : u < P) (hvP : -P < v) (hvu : v < u) :
    (v * Real.sqrt (P * P - u * u) + u * Real.sqrt (P * P - v * v) = 0 ↔ u + v = 0) ∧
      (P * (-Real.sqrt (P * P - u * u) + Real.sqrt (P * P - v * v)) = 0 ↔ u + v = 0) := by
  have hu2 : 0 < P * P - u * u := by nlinarith
  have hv2 : 0 < P * P - v * v := by nlinarith
  have hs0 : 0 < Real.sqrt (P * P - u * u) := Real.sqrt_pos.2 hu2
  have ht0 : 0 < Real.sqrt (P * P - v * v) := Real.sqrt_pos.2 hv2
  have hss := Real.mul_self_sqrt hu2.le
  have htt := Real.mul_self_sqrt hv2.le
  have hback : u + v = 0 → Real.sqrt (P * P - u * u) = Real.sqrt (P * P - v * v) := by
    intro h
    have : u = -v := by linarith
    rw [this]; congr 1; ring
  have hsq : u * u = v * v → u + v = 0 := by
    intro h
    have h' : (u - v) * (u + v) = 0 := by ring_nf; nlinarith
    rcases mul_eq_zero.1 h' with h1 | h1
    · linarith
    · exact h1
  constructor
  · constructor
    · intro h
      apply hsq
      have e1 : v * Real.sqrt (P * P - u * u) = -(u * Real.sqrt (P * P - v * v)) := by
        linarith
      have e2 : v * v * (Real.sqrt (P * P - u * u) * Real.sqrt (P * P - u * u))
          = u * u * (Real.sqrt (P * P - v * v) * Real.sqrt (P * P - v * v)) := by
        have := congrArg (fun z => z * z) e1
        simp only at this
        nlinarith
      rw [hss, htt] at e2
      have e3 : P * P * (u * u - v * v) = 0 := by nlinarith
      rcases mul_eq_zero.1 e3 with h1 | h1
      · nlinarith
      · linarith
    · intro h
      rw [hback h]
      have : v * Real.sqrt (P * P - v * v) + u * Real.sqrt (P * P - v * v)
          = (u + v) * Real.sqrt (P * P - v * v) := by ring
      rw [this, h, zero_mul]
  · constructor
    · intro h
      apply hsq
      rcases mul_eq_zero.1 h with h1 | h1
      · linarith
      · have e : Real.sqrt (P * P - u * u) = Real.sqrt (P * P - v * v) := by linarith
        have e' : P * P - u * u = P * P - v * v := by
          rw [← hss, ← htt, e]
        linarith
    · intro h
      rw [hback h]; ring

/-- The dividend of line 51 on real terms with nonnegative radicands. -/
theorem dividend_shape (P u v : ℝ) (hu : 0 ≤ P * P - u * u) (hv : 0 ≤ P * P - v * v) :
    fin P * (-Val.sqrt (fin P * fin P - (fin u * fin u))
        + Val.sqrt (fin P * fin P - (fin v * fin v)))
      = fin (P * (-Real.sqrt (P * P - u * u) + Real.sqrt (P * P - v * v))) := by
  simp [hu, hv]

/-- A real value is the value zero exactly when the real is zero. -/
theorem fin_eq_zero_iff (x : ℝ) : fin x = (0 : Val) ↔ x = 0 := by
  constructor
  · intro h
    have h' : fin x = fin 0 := h
    injection h'
  · intro h; rw [h]; rfl

/-- The 0/0 of `ke` on a valid cross-section: divisor and dividend vanish together,
exactly when `cosh^2 + cosh^2 = cosh^2`, that is when `phi2 + phi3 = 0`, and then `ke`
has no value. -/
theorem ke_degeneracy (g : Globals) (hd : 0 < g.d) (hS : 0 < g.S) (hW : 0 < g.W)
    (hh : 0 < g.h) :
    (ke_den g = 0 ↔ ke_num g = 0) ∧
    (ke_den g = 0 ↔
      Val.pow (Val.cosh (pi * g.d / (4 * g.h))) 2 + Val.pow (Val.cosh (pi * b g / (2 * g.h))) 2
        = Val.pow (Val.cosh (pi * c g / (2 * g.h))) 2) ∧
    (ke_den g = 0 ↔ phi2 g + phi3 g = 0) ∧
    (ke_den g = 0 → ke g = nan) := by
  obtain ⟨d, ed, hd⟩ := Val.pos_iff.1 hd
  obtain ⟨S, eS, hS⟩ := Val.pos_iff.1 hS
  obtain ⟨W, eW, hW⟩ := Val.pos_iff.1 hW
  obtain ⟨h, eh, hh⟩ := Val.pos_iff.1 hh
  obtain ⟨p1, p2, p3, -, -, -⟩ := hyperbolic_terms g ed eS eW eh hh.ne'
  obtain ⟨hA, hAB, hBC⟩ := scaled_widths_order hd hS hW hh
  have hB : 0 < piR / (2 * h) * (d / 2 + S) := lt_trans hA hAB
  have o1 := sinh_sq_order hA.le hAB
  have o2 := sinh_sq_order hB.le hBC
  have o0 : 0 ≤ Real.sinh (piR * d / (4 * h)) ^ 2 := sq_nonneg _
  have cA := Real.cosh_sq (piR * d / (4 * h))
  have cB := Real.cosh_sq (piR / (2 * h) * (d / 2 + S))
  have cC := Real.cosh_sq (piR / (2 * h) * (d / 2 + S + W))
  have eB : piR * (d / 2 + S) / (2 * h) = piR / (2 * h) * (d / 2 + S) :=
    (div_mul_eq_mul_div _ _ _).symm
  have eC : piR * (d / 2 + S + W) / (2 * h) = piR / (2 * h) * (d / 2 + S + W) :=
    (div_mul_eq_mul_div _ _ _).symm
  have hcosh :
      (Val.pow (Val.cosh (pi * g.d / (4 * g.h))) 2
          + Val.pow (Val.cosh (pi * b g / (2 * g.h))) 2
        = Val.pow (Val.cosh (pi * c g / (2 * g.h))) 2) ↔
      Real.cosh (piR * d / (4 * h)) ^ 2 + Real.cosh (piR / (2 * h) * (d / 2 + S)) ^ 2
        = Real.cosh (piR / (2 * h) * (d / 2 + S + W)) ^ 2 := by
    simp only [b, c, pi_eq, ed, eS, eW, eh]
    simp [hh.ne', eB, eC]
  revert p1 p2 p3
  generalize hPdef : 0.5 * Real.cosh (piR / (2 * h) * (d / 2 + S + W)) ^ 2 = P
  generalize hudef : Real.sinh (piR / (2 * h) * (d / 2 + S)) ^ 2 - P + 1 = u
  generalize hvdef : Real.sinh (piR * d / (4 * h)) ^ 2 - P + 1 = v
  intro p1 p2 p3
  have hP : 0 < P := by rw [← hPdef]; positivity
  have huP : u < P := by linarith
  have hvP : -P < v := by linarith
  have hvu : v < u := by linarith
  have hu2 : 0 ≤ P * P - u * u := by
    nlinarith [mul_pos (sub_pos.2 huP) (by linarith : 0 < P + u)]
  have hv2 : 0 ≤ P * P - v * v := by
    nlinarith [mul_pos (by linarith : 0 < P - v) (by linarith : 0 < P + v)]
  obtain ⟨e1, e2⟩ := modulus_shape P u v hu2 hv2
  have e3 := dividend_shape P u v hu2 hv2
  obtain ⟨z1, z2⟩ := zero_over_zero_iff huP hvP hvu
  have hden : ke_den g
      = fin (v * Real.sqrt (P * P - u * u) + u * Real.sqrt (P * P - v * v)) := by
    unfold ke_den; rw [p1, p2, p3]; exact e1
  have hnum : ke_num g
      = fin (P * (-Real.sqrt (P * P - u * u) + Real.sqrt (P * P - v * v))) := by
    unfold ke_num; rw [p1, p2, p3]; exact e3
  have hke : ke g
      = if v * Real.sqrt (P * P - u * u) + u * Real.sqrt (P * P - v * v) = 0 then nan
        else fin (P * (-Real.sqrt (P * P - u * u) + Real.sqrt (P * P - v * v))
          / (v * Real.sqrt (P * P - u * u) + u * Real.sqrt (P * P - v * v))) := by
    unfold ke; rw [p1, p2, p3]; exact e2
  have hsum : phi2 g + phi3 g = 0 ↔ u + v = 0 := by
    rw [p2, p3, Val.fin_add, fin_eq_zero_iff]
  have hd0 : ke_den g = 0 ↔ u + v = 0 := by
    rw [hden, fin_eq_zero_iff]; exact z1
  have hn0 : ke_num g = 0 ↔ u + v = 0 := by
    rw [hnum, fin_eq_zero_iff]; exact z2
  refine ⟨hd0.trans hn0.symm, ?_, hd0.trans hsum.symm, ?_⟩
  · rw [hcosh, hd0]
    constructor
    · intro h'; linarith
    · intro h'; linarith
  · intro h'
    rw [hden, fin_eq_zero_iff] at h'
    rw [hke, if_pos h']

/-- A value is nonnegative exactly when it is a nonnegative real. -/
theorem nonneg_iff {v : Val} : 0 ≤ v ↔ ∃ x, v = fin x ∧ 0 ≤ x := by
  cases v <;> simp

/-- The order `<` of values implies `<=`. -/
theorem le_of_lt_val {u v : Val} (h : u < v) : u ≤ v := by
  obtain ⟨x, y, rfl, rfl, hxy⟩ := Val.lt_iff.1 h
  exact (Val.fin_le x y).2 hxy.le

/-- The permittivity formula stays below `epsilon_r` on elliptic ratios `q >= 0`,
`p > 0`. -/
theorem synthesizer_le (e q p : Val) (he : 1 ≤ e) (hq : 0 ≤ q) (hp : 0 < p) :
    (2 * e * q + p) / (2 * q + p) ≤ e := by
  obtain ⟨e, rfl, he⟩ := Val.one_le_iff.1 he
  obtain ⟨q, rfl, hq⟩ := nonneg_iff.1 hq
  obtain ⟨p, rfl, hp⟩ := Val.pos_iff.1 hp
  have hden : 0 < 2 * q + p := by linarith
  simp [hden.ne']
  rw [div_le_iff₀ hden]
  nlinarith

/-- Halving commutes with scaling. -/
theorem scale_half (lam : ℝ) (u : Val) : fin lam * u / 2 = fin lam * (u / 2) := by
  cases u <;> simp [mul_div_assoc]

/-- Scaling distributes over a sum. -/
theorem scale_add (lam : ℝ) (u v : Val) : fin lam * u + fin lam * v = fin lam * (u + v) := by
  cases u <;> cases v <;> simp [mul_add]

/-- A quotient of two lengths does not change when both are scaled. -/
theorem scale_div {lam : ℝ} (hl : lam ≠ 0) (u v : Val) :
    (fin lam * u) / (fin lam * v) = u / v := by
  cases u <;> cases v <;> simp
  rename_i x y
  by_cases hy : y = 0
  · simp [hy]
  · simp [hy, hl, mul_div_mul_left]

/-- The argument `(p/(2*h))*x` of lines 44, 45, 47, 48 does not change when `h` and `x`
are scaled. -/
theorem scale_arg {lam : ℝ} (hl : lam ≠ 0) (p h x : Val) :
    (p / (2 * (fin lam * h))) * (fin lam * x) = (p / (2 * h)) * x := by
  cases p <;> cases h <;> cases x <;> simp
  rename_i p h x
  by_cases hh : h = 0
  · simp [hh]
  · simp [hh, hl]
    field_simp
    ring

/-- The argument `p*d/(4*h)` of lines 46 and 49 does not change when `d` and `h` are
scaled. -/
theorem scale_arg_quarter {lam : ℝ} (hl : lam ≠ 0) (p d h : Val) :
    p * (fin lam * d) / (4 * (fin lam * h)) = p * d / (4 * h) := by
  cases p <;> cases d <;> cases h <;> simp
  rename_i p d h
  by_cases hh : h = 0
  · simp [hh]
  · simp [hh, hl]
    field_simp
    ring

/-- Every macro of the geometry reducer and of the modulus corrector takes the same value
on a cross-section and on its scaled copy. -/
theorem scale_macros {lam : ℝ} (hl : lam ≠ 0) (d S W t h e : Val) :
    r (Globals.mk (fin lam * d) (fin lam * S) (fin lam * W) (fin lam * t) (fin lam * h) e)
      = r (Globals.mk d S W t h e) ∧
    k1 (Globals.mk (fin lam * d) (fin lam * S) (fin lam * W) (fin lam * t) (fin lam * h) e)
      = k1 (Globals.mk d S W t h e) ∧
    delta (Globals.mk (fin lam * d) (fin lam * S) (fin lam * W) (fin lam * t) (fin lam * h) e)
      = delta (Globals.mk d S W t h e) ∧
    ke (Globals.mk (fin lam * d) (fin lam * S) (fin lam * W) (fin lam * t) (fin lam * h) e)
      = ke (Globals.mk d S W t h e) ∧
    ko (Globals.mk (fin lam * d) (fin lam * S) (fin lam * W) (fin lam * t) (fin lam * h) e)
      = ko (Globals.mk d S W t h e) := by
  have ha : a (Globals.mk (fin lam * d) (fin lam * S) (fin lam * W) (fin lam * t)
      (fin lam * h) e) = fin lam * a (Globals.mk d S W t h e) := scale_half lam d
  have hb : b (Globals.mk (fin lam * d) (fin lam * S) (fin lam * W) (fin lam * t)
      (fin lam * h) e) = fin lam * b (Globals.mk d S W t h e) := by
    simp only [b, scale_half, scale_add]
  have hc : c (Globals.mk (fin lam * d) (fin lam * S) (fin lam * W) (fin lam * t)
      (fin lam * h) e) = fin lam * c (Globals.mk d S W t h e) := by
    simp only [c, scale_half, scale_add]
  have hr : r (Globals.mk (fin lam * d) (fin lam * S) (fin lam * W) (fin lam * t)
      (fin lam * h) e) = r (Globals.mk d S W t h e) := by
    simp only [r, ha, hb, scale_div hl]
  have hk : k1 (Globals.mk (fin lam * d) (fin lam * S) (fin lam * W) (fin lam * t)
      (fin lam * h) e) = k1 (Globals.mk d S W t h e) := by
    simp only [k1, hb, hc, scale_div hl]
  have h1 : phi1 (Globals.mk (fin lam * d) (fin lam * S) (fin lam * W) (fin lam * t)
      (fin lam * h) e) = phi1 (Globals.mk d S W t h e) := by
    simp only [phi1, hc, scale_arg hl]
  have h4 : phi4 (Globals.mk (fin lam * d) (fin lam * S) (fin lam * W) (fin lam * t)
      (fin lam * h) e) = phi4 (Globals.mk d S W t h e) := by
    simp only [phi4, hc, scale_arg hl]
  have h2 : phi2 (Globals.mk (fin lam * d) (fin lam * S) (fin lam * W) (fin lam * t)
      (fin lam * h) e) = phi2 (Globals.mk d S W t h e) := by
    simp only [phi2, h1, hb, scale_arg hl]
  have h3 : phi3 (Globals.mk (fin lam * d) (fin lam * S) (fin lam * W) (fin lam * t)
      (fin lam * h) e) = phi3 (Globals.mk d S W t h e) := by
    simp only [phi3, h1, scale_arg_quarter hl]
  have h5 : phi5 (Globals.mk (fin lam * d) (fin lam * S) (fin lam * W) (fin lam * t)
      (fin lam * h) e) = phi5 (Globals.mk d S W t h e) := by
    simp only [phi5, h4, hb, scale_arg hl]
  have h6 : phi6 (Globals.mk (fin lam * d) (fin lam * S) (fin lam * W) (fin lam * t)
      (fin lam * h) e) = phi6 (Globals.mk d S W t h e) := by
    simp only [phi6, h4, scale_arg_quarter hl]
  refine ⟨hr, hk, ?_, ?_, ?_⟩
  · simp only [delta, hr, hk]
  · simp only [ke, h1, h2, h3]
  · simp only [ko, h4, h5, h6]

end

end EdgeCoupledCpwg
